import Mathlib

/-!
# WoodpeckerOnline — verification of the grading / scheduling core

Shallow embedding of the puzzle-grading and progress/scheduling code of
`cmd/server/main.go` (functions `normalizeSAN`, `gradeLine`, `gradeSolution`,
`saveProgress`, `updateDailyPlans`), together with proofs of the spec claims.

Go strings are modelled as `List Char`.  The repository only ever feeds ASCII
SAN strings through these helpers, so `strings.ToLower` is modelled by the
ASCII case map and `strings.TrimSpace` by trimming the ASCII whitespace set;
byte-level comparisons (`s[0] >= '0'` …) are modelled on `Char.toNat`.
-/

/-- ASCII whitespace test, modelling the cut that `strings.TrimSpace` makes on
the ASCII inputs used by the server. -/
def isSpaceGo (c : Char) : Bool :=
  c == ' ' || c == '\t' || c == '\n' || c == '\x0b' || c == '\x0c' || c == '\r'

/-- Byte-range digit test, modelling `s[0] >= '0' && s[0] <= '9'`. -/
def isDigitGo (c : Char) : Bool :=
  48 ≤ c.toNat && c.toNat ≤ 57

/-- ASCII uppercase test (`'A'..'Z'`), the range the Go `strings.ToLower`
shifts by 32. -/
def isUpperAZ (c : Char) : Bool :=
  65 ≤ c.toNat && c.toNat ≤ 90

/-- One character of `strings.ToLower` on ASCII input. -/
def toLowerGo (c : Char) : Char :=
  if isUpperAZ c then Char.ofNat (c.toNat + 32) else c

/-- `strings.TrimSpace`: drop whitespace at both ends. -/
def trimSpaceL (s : List Char) : List Char :=
  ((s.dropWhile isSpaceGo).reverse.dropWhile isSpaceGo).reverse

/-- Does the second list start with the first?  (`strings.HasPrefix`-style
helper used by the replace/split/contains models below.) -/
def startsWithL : List Char → List Char → Bool
  | [], _ => true
  | _ :: _, [] => false
  | p :: ps, c :: cs => p == c && startsWithL ps cs

/-- `strings.ReplaceAll pat rep s`: leftmost non-overlapping replacement.
All patterns used by `normalizeSAN` are nonempty; the empty-pattern case is
modelled as the identity. -/
def replaceAllL (p r : List Char) (s : List Char) : List Char :=
  if hp : p = [] then s
  else
    match s with
    | [] => []
    | c :: cs =>
      if startsWithL p (c :: cs) then r ++ replaceAllL p r ((c :: cs).drop p.length)
      else c :: replaceAllL p r cs
termination_by s.length
decreasing_by
  · have hplen : 0 < p.length := List.length_pos.mpr hp
    simp only [List.length_drop, List.length_cons]
    omega
  · simp only [List.length_cons]
    omega

/-- `strings.Contains s p`. -/
def containsL (s p : List Char) : Bool :=
  match s with
  | [] => startsWithL p []
  | c :: cs => startsWithL p (c :: cs) || containsL cs p

/-- `strings.Split s p` for nonempty separator `p` (the code only splits on
`"="`); the unused empty-separator case is modelled as no split. -/
def splitGo (p : List Char) (s : List Char) : List (List Char) :=
  if hp : p = [] then [s]
  else
    match s with
    | [] => [[]]
    | c :: cs =>
      if startsWithL p (c :: cs) then [] :: splitGo p ((c :: cs).drop p.length)
      else
        match splitGo p cs with
        | [] => [[c]]
        | h :: t => (c :: h) :: t
termination_by s.length
decreasing_by
  · have hplen : 0 < p.length := List.length_pos.mpr hp
    simp only [List.length_drop, List.length_cons]
    omega
  · simp only [List.length_cons]
    omega

/-- `normalizeSAN` from `cmd/server/main.go`: canonicalizes SAN notation for
comparison (lowercase+trim, unify castling, strip `+ # ! ?`, strip dots and
leading digits, unify promotions, strip spaces). -/
def normalizeSAN (raw : List Char) : List Char :=
  let s := (trimSpaceL raw).map toLowerGo
  let s := replaceAllL ['0', '-', '0', '-', '0'] ['o', '-', 'o', '-', 'o'] s
  let s := replaceAllL ['0', '-', '0'] ['o', '-', 'o'] s
  let s := replaceAllL ['+'] [] s
  let s := replaceAllL ['#'] [] s
  let s := replaceAllL ['!'] [] s
  let s := replaceAllL ['?'] [] s
  let s := replaceAllL ['!', '?'] [] s
  let s := replaceAllL ['?', '!'] [] s
  let s := replaceAllL ['.', '.', '.'] [] s
  let s := replaceAllL ['.', '.'] [] s
  let s := replaceAllL ['.'] [] s
  let s := s.dropWhile isDigitGo
  let s :=
    if containsL s ['='] then
      let parts := splitGo ['='] s
      if parts.length = 2 then parts.getD 0 [] ++ parts.getD 1 [] else s
    else s
  let s := replaceAllL [' '] [] s
  s

/-- `model.Line`: one node of a solution forest.  The `model` package is not
part of the extracted sources; the three fields are exactly those the server
code reads (`line.SAN`, `line.IsTick`, `line.Children` in `main.go`). -/
inductive Line where
  | mk (san : List Char) (isTick : Bool) (children : List Line)

/-- The `SAN` field of a node. -/
def Line.san : Line → List Char
  | .mk s _ _ => s

/-- The `IsTick` flag of a node. -/
def Line.isTick : Line → Bool
  | .mk _ t _ => t

/-- The `Children` list of a node. -/
def Line.children : Line → List Line
  | .mk _ _ ch => ch

/-- The slice of `model.Puzzle` the graders read: `puzzle.Solution.Lines`
and `puzzle.Ticks`. -/
structure Puzzle where
  solutionLines : List Line
  ticks : List (List Char)

/-- `GradeLineResponse` of `main.go` (flat-mode grade result). -/
structure GradeLineResponse where
  correct : Bool
  score : Nat
  ticksMatched : List Nat
  depthMatched : Nat
  earliestMistake : Option Nat
  bestLine : List (List Char)
  requiredTicks : List (List Char)
deriving DecidableEq

/-- The local accumulator variables of the `gradeLine` loop
(`ticksMatched`, `depthMatched`, `earliestMistake`, `bestLine`) together
with the `response.Correct` field the loop mutates. -/
structure LoopState where
  tm : List Nat
  dm : Nat
  em : Option Nat
  bl : List (List Char)
  corr : Bool
deriving DecidableEq

/-- The `for i, typedMove := range typedSAN` loop of `gradeLine`:
lock-step comparison of typed moves against `lines`, stopping at the first
mismatch or when typed moves outrun the solution. -/
def gradeLineLoop (lines : List Line) : List (List Char) → Nat → LoopState → LoopState
  | [], _, st => st
  | typedMove :: rest, i, st =>
    if h : lines.length ≤ i then
      { st with em := if st.em = none then some i else st.em }
    else
      let sol := lines.get ⟨i, Nat.lt_of_not_le h⟩
      if normalizeSAN typedMove = normalizeSAN sol.san then
        gradeLineLoop lines rest (i + 1)
          { tm := if sol.isTick then st.tm ++ [i] else st.tm
            dm := i + 1
            em := st.em
            bl := st.bl ++ [sol.san]
            corr := if i = 0 then true else st.corr }
      else
        { st with em := if st.em = none then some i else st.em }

/-- `gradeLine` from `main.go`: flat-mode grading of a typed move list
against `puzzle.Solution.Lines`. -/
def gradeLine (puzzle : Puzzle) (typedSAN : List (List Char)) : GradeLineResponse :=
  let base : GradeLineResponse :=
    { correct := false, score := 0, ticksMatched := [], depthMatched := 0,
      earliestMistake := none, bestLine := [], requiredTicks := puzzle.ticks }
  if typedSAN = [] then base
  else
    let r := gradeLineLoop puzzle.solutionLines typedSAN 0
      { tm := [], dm := 0, em := none, bl := [], corr := false }
    { correct := r.corr
      score := if r.corr then 1 + r.tm.length else 0
      ticksMatched := r.tm
      depthMatched := r.dm
      earliestMistake := r.em
      bestLine := r.bl
      requiredTicks := puzzle.ticks }

/-- Does the first typed move match (after normalization) the first solution
move?  This is the condition the claim about `correct` refers to. -/
def firstMoveMatches (puzzle : Puzzle) (typedSAN : List (List Char)) : Bool :=
  match typedSAN, puzzle.solutionLines with
  | m :: _, s :: _ => normalizeSAN m == normalizeSAN s.san
  | _, _ => false

/-- The mutable accumulator (`correct`, `score`, `matchedLine`) shared by the
closure `dfs` inside `gradeSolution`. -/
structure DfsState where
  correct : Bool
  score : Nat
  matchedLine : List (List Char)
deriving DecidableEq

/-- `matchedLine[depth] = san` when the slot exists, else append —
the two-armed update inside `gradeSolution`. -/
def setOrAppendAt (l : List (List Char)) (depth : Nat) (x : List Char) : List (List Char) :=
  if depth < l.length then l.set depth x else l ++ [x]

/-- The three state mutations `gradeSolution` performs on a matched node:
bump `score` on a tick, set `correct` at depth 0, record the move into
`matchedLine[depth]`. -/
def dfsStep (st : DfsState) (san : List Char) (tick : Bool) (depth : Nat) : DfsState :=
  let st1 := { st with score := if tick then st.score + 1 else st.score }
  let st2 := if depth = 0 then { st1 with correct := true } else st1
  { st2 with matchedLine := setOrAppendAt st2.matchedLine depth san }

/-- The recursive closure `dfs` of `gradeSolution`: walk the sibling list at
`depth`, skipping empty-move nodes, taking raw-string matches against
`playedSAN[depth]`, mutating the shared state, recursing into children while
typed moves remain, and falling back to later siblings when a branch fails. -/
def dfs (playedSAN : List (List Char)) : List Line → Nat → DfsState → DfsState × Bool
  | [], _, st => (st, false)
  | .mk san tick children :: rest, depth, st =>
    if san = [] then dfs playedSAN rest depth st
    else if h : depth < playedSAN.length then
      if san = playedSAN.get ⟨depth, h⟩ then
        if depth + 1 < playedSAN.length ∧ children.isEmpty = false then
          match dfs playedSAN children (depth + 1) (dfsStep st san tick depth) with
          | (st4, true) => (st4, true)
          | (st4, false) => dfs playedSAN rest depth st4
        else if playedSAN.length ≤ depth + 1 then
          (dfsStep st san tick depth, true)
        else
          dfs playedSAN rest depth (dfsStep st san tick depth)
      else
        dfs playedSAN rest depth st
    else
      dfs playedSAN rest depth st

/-- `gradeSolution` from `main.go` (legacy branching-mode grading):
returns `(correct, score, matchedLine)`. -/
def gradeSolution (puzzle : Puzzle) (playedSAN : List (List Char)) :
    Bool × Nat × List (List Char) :=
  if playedSAN = [] then (false, 0, [])
  else
    let r := dfs playedSAN puzzle.solutionLines 0 ⟨false, 0, []⟩
    (r.1.correct, r.1.score, r.1.matchedLine)

/-- Modelled from the spec: the first sibling at `depth` with a nonempty move
equal to `playedSAN[depth]` — the sibling the claim says is the only one ever
taken at that depth. -/
def findMatchingSibling (playedSAN : List (List Char)) (lines : List Line) (depth : Nat) :
    Option Line :=
  match lines with
  | [] => none
  | l :: rest =>
    if l.san ≠ [] ∧ l.san = playedSAN.getD depth [] ∧ depth < playedSAN.length then some l
    else findMatchingSibling playedSAN rest depth

/-- Modelled from the spec: the branching-mode search as the claim describes
it — at each depth take the first matching sibling and commit to it, with no
backtracking to later siblings when a deeper mismatch occurs. -/
def specNoBacktrack (playedSAN : List (List Char)) (lines : List Line) (depth : Nat)
    (st : DfsState) : DfsState :=
  match findMatchingSibling playedSAN lines depth with
  | none => st
  | some l =>
    let st1 := { st with score := if l.isTick then st.score + 1 else st.score }
    let st2 := if depth = 0 then { st1 with correct := true } else st1
    let st3 := { st2 with matchedLine := setOrAppendAt st2.matchedLine depth l.san }
    if depth + 1 < playedSAN.length then specNoBacktrack playedSAN l.children (depth + 1) st3
    else st3
termination_by playedSAN.length - depth
decreasing_by
  omega

/-- Modelled from the spec: `gradeSolution` as the no-backtracking claim
describes it. -/
def specGradeNoBacktrack (puzzle : Puzzle) (playedSAN : List (List Char)) :
    Bool × Nat × List (List Char) :=
  if playedSAN = [] then (false, 0, [])
  else
    let r := specNoBacktrack playedSAN puzzle.solutionLines 0 ⟨false, 0, []⟩
    (r.correct, r.score, r.matchedLine)

/-- One row of the `progress` table, as read and written by `saveProgress`
(`attempts`, `score`, `typed_json`, `solved_at`, `updated_at`);
timestamps are abstracted to naturals. -/
structure ProgressRow where
  attempts : Nat
  score : Int
  typedJson : List (List Char)
  solvedAt : Option Nat
  updatedAt : Nat
deriving DecidableEq

/-- `saveProgress` from `main.go` as a transition on the (user, puzzle) row:
`none` means the existence query found no row (the INSERT branch runs),
`some row` means it did (the UPDATE branch runs).  The UPDATE sets
`solved_at = CASE WHEN depthMatched >= 3 THEN CURRENT_TIMESTAMP ELSE solved_at END`. -/
def saveProgress (existing : Option ProgressRow) (typedSAN : List (List Char))
    (score depthMatched : Int) (now : Nat) : ProgressRow :=
  match existing with
  | none =>
    { attempts := 1, score := score, typedJson := typedSAN,
      solvedAt := none, updatedAt := now }
  | some row =>
    { attempts := row.attempts + 1, score := score, typedJson := typedSAN,
      solvedAt := if 3 ≤ depthMatched then some now else row.solvedAt,
      updatedAt := now }

/-- The slice of a `DailyPlan` the sweep writes back (`plan.TodayBatch`). -/
structure DailyPlanRec where
  todayBatch : List (List Char)

/-- The three fallible collaborators one iteration of `updateDailyPlans`
calls: `service.GetOrCreateDailyPlan`, `service.BuildTodayBatch`, and the
`UPDATE daily_plans` exec. -/
structure PlanService where
  getOrCreateDailyPlan : List Char → Except (List Char) DailyPlanRec
  buildTodayBatch : List Char → DailyPlanRec → Except (List Char) (List (List Char))
  persistPlan : List Char → DailyPlanRec → Except (List Char) Unit

/-- The observable outcome of the sweep for one user: which log branch ran. -/
inductive UserResult where
  | planError
  | batchError
  | execError
  | updated (batchSize : Nat)
deriving DecidableEq

/-- The fallback user id `"default_user"`. -/
def defaultUserID : List Char :=
  ['d', 'e', 'f', 'a', 'u', 'l', 't', '_', 'u', 's', 'e', 'r']

/-- The body of the `for _, userID := range userIDs` loop of
`updateDailyPlans`, transcribed with its two `continue`s and the final
log-only exec-error branch. -/
def updateDailyPlansGo (svc : PlanService) : List (List Char) → List UserResult
  | [] => []
  | userID :: rest =>
    match svc.getOrCreateDailyPlan userID with
    | .error _ => .planError :: updateDailyPlansGo svc rest
    | .ok plan =>
      match svc.buildTodayBatch userID plan with
      | .error _ => .batchError :: updateDailyPlansGo svc rest
      | .ok todayBatch =>
        match svc.persistPlan userID { plan with todayBatch := todayBatch } with
        | .error _ => .execError :: updateDailyPlansGo svc rest
        | .ok _ => .updated todayBatch.length :: updateDailyPlansGo svc rest

/-- `updateDailyPlans` from `main.go`: the initial `SELECT DISTINCT user_id`
(given here as an `Except`, error meaning the early-return branch), the
empty-list fallback to `default_user`, then the per-user loop. -/
def updateDailyPlans (svc : PlanService) (userQuery : Except (List Char) (List (List Char))) :
    List UserResult :=
  match userQuery with
  | .error _ => []
  | .ok userIDs =>
    let ids := if userIDs.isEmpty then [defaultUserID] else userIDs
    updateDailyPlansGo svc ids

/-- The per-user semantics of one sweep iteration, used to state that the
sweep treats users independently. -/
def processUser (svc : PlanService) (userID : List Char) : UserResult :=
  match svc.getOrCreateDailyPlan userID with
  | .error _ => .planError
  | .ok plan =>
    match svc.buildTodayBatch userID plan with
    | .error _ => .batchError
    | .ok todayBatch =>
      match svc.persistPlan userID { plan with todayBatch := todayBatch } with
      | .error _ => .execError
      | .ok _ => .updated todayBatch.length

/-! ## Lemmas about the string primitives -/

theorem replaceAllL_nil (p r : List Char) : replaceAllL p r [] = [] := by
  rw [replaceAllL.eq_def]
  split
  · rfl
  · rfl

theorem replaceAllL_cons_pos (p r : List Char) (c : Char) (cs : List Char)
    (hp : ¬p = []) (hsw : startsWithL p (c :: cs) = true) :
    replaceAllL p r (c :: cs) = r ++ replaceAllL p r ((c :: cs).drop p.length) := by
  rw [replaceAllL.eq_def, dif_neg hp]
  simp [hsw]

theorem replaceAllL_cons_neg (p r : List Char) (c : Char) (cs : List Char)
    (hp : ¬p = []) (hsw : ¬startsWithL p (c :: cs) = true) :
    replaceAllL p r (c :: cs) = c :: replaceAllL p r cs := by
  rw [replaceAllL.eq_def, dif_neg hp]
  simp [hsw]

/-- Every character of a matched pattern occurs in the scanned list. -/
theorem startsWithL_mem : ∀ (p s : List Char), startsWithL p s = true →
    ∀ c ∈ p, c ∈ s := by
  intro p
  induction p with
  | nil =>
    intro s _ c hc
    exact absurd hc (List.not_mem_nil c)
  | cons p0 ps ih =>
    intro s hs c hc
    cases s with
    | nil => simp [startsWithL] at hs
    | cons s0 ss =>
      simp only [startsWithL, Bool.and_eq_true, beq_iff_eq] at hs
      rcases List.mem_cons.mp hc with rfl | hc'
      · exact hs.1 ▸ List.mem_cons_self _ _
      · exact List.mem_cons_of_mem _ (ih ss hs.2 c hc')

/-- Characters of a `ReplaceAll` result come from the subject or the
replacement. -/
theorem mem_replaceAllL (p r : List Char) (s : List Char) (c : Char)
    (h : c ∈ replaceAllL p r s) : c ∈ s ∨ c ∈ r := by
  induction s using replaceAllL.induct p r with
  | case1 x hp =>
    rw [replaceAllL.eq_def, dif_pos hp] at h
    exact Or.inl h
  | case2 hp =>
    rw [replaceAllL_nil] at h
    exact absurd h (List.not_mem_nil c)
  | case3 hp a as hsw ih =>
    rw [replaceAllL_cons_pos p r a as hp hsw] at h
    rcases List.mem_append.mp h with hr | hrec
    · exact Or.inr hr
    · rcases ih hrec with hd | hr
      · exact Or.inl (List.mem_of_mem_drop hd)
      · exact Or.inr hr
  | case4 hp a as hsw ih =>
    rw [replaceAllL_cons_neg p r a as hp hsw] at h
    rcases List.mem_cons.mp h with rfl | hrec
    · exact Or.inl (List.mem_cons_self _ _)
    · rcases ih hrec with hm | hr
      · exact Or.inl (List.mem_cons_of_mem _ hm)
      · exact Or.inr hr

/-- `ReplaceAll` is the identity when some character of the pattern does not
occur in the subject. -/
theorem replaceAllL_eq_self (p r : List Char) (c : Char) (hc : c ∈ p) :
    ∀ (s : List Char), c ∉ s → replaceAllL p r s = s := by
  have hp : ¬p = [] := by
    intro h
    rw [h] at hc
    exact absurd hc (List.not_mem_nil c)
  intro s
  induction s with
  | nil => intro _; exact replaceAllL_nil p r
  | cons a as ih =>
    intro hns
    by_cases hsw : startsWithL p (a :: as) = true
    · exact absurd (startsWithL_mem p (a :: as) hsw c hc) hns
    · rw [replaceAllL_cons_neg p r a as hp hsw,
        ih fun h => hns (List.mem_cons_of_mem a h)]

/-- Removing a single character removes it completely (the replacement must
not reintroduce it). -/
theorem not_mem_replaceAllL_single (c : Char) (r : List Char) (hr : c ∉ r) :
    ∀ (s : List Char), c ∉ replaceAllL [c] r s := by
  intro s
  induction s with
  | nil =>
    rw [replaceAllL_nil]
    exact List.not_mem_nil c
  | cons a as ih =>
    by_cases hsw : startsWithL [c] (a :: as) = true
    · rw [replaceAllL_cons_pos [c] r a as (by simp) hsw]
      intro h
      rcases List.mem_append.mp h with h1 | h2
      · exact hr h1
      · exact ih (by simpa using h2)
    · rw [replaceAllL_cons_neg [c] r a as (by simp) hsw]
      intro h
      rcases List.mem_cons.mp h with rfl | h2
      · simp [startsWithL] at hsw
      · exact ih h2

/-- `strings.Contains s [c] = false` when `c` does not occur. -/
theorem containsL_single_false (c : Char) :
    ∀ (s : List Char), c ∉ s → containsL s [c] = false := by
  intro s
  induction s with
  | nil => intro _; rfl
  | cons a as ih =>
    intro h
    have hne : ¬(c = a) := fun hc => h (hc ▸ List.mem_cons_self _ _)
    simp only [containsL, startsWithL, Bool.or_eq_false_iff, Bool.and_eq_false_iff]
    exact ⟨Or.inl (by simpa using hne), ih fun hm => h (List.mem_cons_of_mem a hm)⟩

/-- `dropWhile` is the identity when the predicate holds nowhere. -/
theorem dropWhile_eq_self_of (f : Char → Bool) (l : List Char)
    (h : ∀ c ∈ l, f c = false) : l.dropWhile f = l := by
  cases l with
  | nil => rfl
  | cons a as =>
    rw [List.dropWhile_cons, if_neg]
    simp [h a (List.mem_cons_self a as)]

/-- Characters survive `dropWhile`. -/
theorem mem_of_mem_dropWhileL (f : Char → Bool) (l : List Char) (c : Char)
    (h : c ∈ l.dropWhile f) : c ∈ l :=
  (List.dropWhile_sublist f).mem h

/-- Characters of a trimmed string come from the original. -/
theorem mem_trimSpaceL (s : List Char) (c : Char) (h : c ∈ trimSpaceL s) : c ∈ s := by
  unfold trimSpaceL at h
  rw [List.mem_reverse] at h
  have h1 := mem_of_mem_dropWhileL isSpaceGo _ c h
  rw [List.mem_reverse] at h1
  exact mem_of_mem_dropWhileL isSpaceGo s c h1

/-- `TrimSpace` is the identity on whitespace-free strings. -/
theorem trimSpaceL_eq_self (s : List Char) (h : ∀ c ∈ s, isSpaceGo c = false) :
    trimSpaceL s = s := by
  unfold trimSpaceL
  rw [dropWhile_eq_self_of isSpaceGo s h,
    dropWhile_eq_self_of isSpaceGo s.reverse (fun c hc => h c (List.mem_reverse.mp hc)),
    List.reverse_reverse]

/-- Mapping a function that fixes every element is the identity. -/
theorem map_eq_self_of (f : Char → Char) (l : List Char) (h : ∀ c ∈ l, f c = c) :
    l.map f = l := by
  induction l with
  | nil => rfl
  | cons a as ih =>
    simp [h a (List.mem_cons_self a as), ih fun c hc => h c (List.mem_cons_of_mem a hc)]

/-! ## Character-class lemmas for the normalization analysis -/

/-- Characters outside the bad classes of the idempotence counterexamples:
no digits, no `=`, and no whitespace other than a plain space. -/
def tameChar (c : Char) : Bool :=
  !isDigitGo c && !(c == '=') && (!isSpaceGo c || c == ' ')

/-- Invariant after lowercasing a tame string. -/
def lowChar (c : Char) : Bool :=
  tameChar c && !isUpperAZ c

/-- Characters that every `normalizeSAN` output over tame input consists of:
additionally no annotation characters, no dots, no whitespace at all. -/
def cleanChar (c : Char) : Bool :=
  !isDigitGo c && !isSpaceGo c && !isUpperAZ c && !(c == '=') &&
  !(c == '+') && !(c == '#') && !(c == '!') && !(c == '?') && !(c == '.')

theorem char_ne_of_toNat_ne (c d : Char) (h : c.toNat ≠ d.toNat) : c ≠ d :=
  fun he => h (congrArg Char.toNat he)

theorem char_toNat_ofNat (n : Nat) (h : n < 55296) : (Char.ofNat n).toNat = n := by
  simp [Char.ofNat, Nat.isValidChar, h, Char.toNat, Char.ofNatAux, UInt32.ofNat', UInt32.toNat]

theorem toLowerGo_toNat (c : Char) (h : isUpperAZ c = true) :
    (toLowerGo c).toNat = c.toNat + 32 := by
  have hb : 48 ≤ c.toNat + 32 ∧ c.toNat + 32 ≤ 122 := by
    simp only [isUpperAZ, Bool.and_eq_true, decide_eq_true_eq] at h
    omega
  rw [toLowerGo, if_pos h]
  have hvalid : c.toNat + 32 < 55296 := by omega
  exact char_toNat_ofNat _ hvalid

theorem toLowerGo_eq_self (c : Char) (h : isUpperAZ c = false) : toLowerGo c = c := by
  rw [toLowerGo, if_neg]
  simp [h]

/-- Lowercasing a tame character yields a tame, non-uppercase character. -/
theorem toLowerGo_low (c : Char) (h : tameChar c = true) :
    lowChar (toLowerGo c) = true := by
  cases hu : isUpperAZ c with
  | false =>
    rw [lowChar, toLowerGo_eq_self c hu, hu]
    simp [h]
  | true =>
    have ht := toLowerGo_toNat c hu
    have hrange : 97 ≤ (toLowerGo c).toNat ∧ (toLowerGo c).toNat ≤ 122 := by
      simp only [isUpperAZ, Bool.and_eq_true, decide_eq_true_eq] at hu
      omega
    have hdig : isDigitGo (toLowerGo c) = false := by
      simp only [isDigitGo, Bool.and_eq_false_iff, decide_eq_false_iff_not]
      right
      omega
    have hup : isUpperAZ (toLowerGo c) = false := by
      simp only [isUpperAZ, Bool.and_eq_false_iff, decide_eq_false_iff_not]
      right
      omega
    have hsp : isSpaceGo (toLowerGo c) = false := by
      cases hs : isSpaceGo (toLowerGo c) with
      | false => rfl
      | true =>
        exfalso
        have hle : (toLowerGo c).toNat ≤ 32 := by
          simp only [isSpaceGo, Bool.or_eq_true, beq_iff_eq] at hs
          rcases hs with ((((h | h) | h) | h) | h) | h <;> rw [h] <;> decide
        omega
    have heq : (toLowerGo c == '=') = false := by
      cases he : toLowerGo c == '=' with
      | false => rfl
      | true =>
        exfalso
        have h61 := congrArg Char.toNat (beq_iff_eq.mp he)
        rw [show ('=' : Char).toNat = 61 from rfl] at h61
        omega
    simp [lowChar, tameChar, hdig, hup, hsp, heq]

/-- Collect membership facts: `∀`-facts survive a `ReplaceAll`. -/
theorem forall_mem_replaceAllL (P : Char → Bool) (p r s : List Char)
    (hs : ∀ c ∈ s, P c = true) (hr : ∀ c ∈ r, P c = true) :
    ∀ c ∈ replaceAllL p r s, P c = true :=
  fun c hc => (mem_replaceAllL p r s c hc).elim (hs c) (hr c)

/-- Absence facts survive a `ReplaceAll` whose replacement avoids the char. -/
theorem not_mem_replaceAllL_of (p r s : List Char) (x : Char)
    (hx : x ∉ s) (hr : x ∉ r) : x ∉ replaceAllL p r s :=
  fun hm => (mem_replaceAllL p r s x hm).elim hx hr

/-- A character whose class test fails cannot occur in a list whose members
all pass it. -/
theorem not_mem_of_pred (P : Char → Bool) (y : List Char)
    (h : ∀ c ∈ y, P c = true) (x : Char) (hx : P x = false) : x ∉ y := by
  intro hm
  rw [h x hm] at hx
  cases hx

theorem cleanChar_spec (c : Char) (h : cleanChar c = true) :
    isDigitGo c = false ∧ isSpaceGo c = false ∧ isUpperAZ c = false ∧
    c ≠ '=' ∧ c ≠ '+' ∧ c ≠ '#' ∧ c ≠ '!' ∧ c ≠ '?' ∧ c ≠ '.' := by
  simp only [cleanChar, Bool.and_eq_true, Bool.not_eq_true', beq_eq_false_iff_ne] at h
  obtain ⟨⟨⟨⟨⟨⟨⟨⟨h1, h2⟩, h3⟩, h4⟩, h5⟩, h6⟩, h7⟩, h8⟩, h9⟩ := h
  exact ⟨h1, h2, h3, h4, h5, h6, h7, h8, h9⟩

theorem lowChar_spec (c : Char) (h : lowChar c = true) :
    isDigitGo c = false ∧ c ≠ '=' ∧ (isSpaceGo c = false ∨ c = ' ') ∧
    isUpperAZ c = false := by
  simp only [lowChar, tameChar, Bool.and_eq_true, Bool.not_eq_true',
    beq_eq_false_iff_ne, Bool.or_eq_true, beq_iff_eq] at h
  obtain ⟨⟨⟨h1, h2⟩, h3⟩, h4⟩ := h
  refine ⟨h1, h2, ?_, h4⟩
  rcases h3 with h3 | h3
  · exact Or.inl (by simpa using h3)
  · exact Or.inr h3

/-- `normalizeSAN` is the identity on strings made of clean characters
(its own outputs over tame inputs, see `normalizeSAN_clean`). -/
theorem normalizeSAN_eq_self_of_clean (y : List Char) (h : ∀ c ∈ y, cleanChar c = true) :
    normalizeSAN y = y := by
  have hspec := fun c hc => cleanChar_spec c (h c hc)
  have htrim : trimSpaceL y = y := trimSpaceL_eq_self y fun c hc => (hspec c hc).2.1
  have hmap : y.map toLowerGo = y :=
    map_eq_self_of _ y fun c hc => toLowerGo_eq_self c (hspec c hc).2.2.1
  have h0 : '0' ∉ y := not_mem_of_pred cleanChar y h '0' (by decide)
  have hplus : '+' ∉ y := not_mem_of_pred cleanChar y h '+' (by decide)
  have hhash : '#' ∉ y := not_mem_of_pred cleanChar y h '#' (by decide)
  have hbang : '!' ∉ y := not_mem_of_pred cleanChar y h '!' (by decide)
  have hques : '?' ∉ y := not_mem_of_pred cleanChar y h '?' (by decide)
  have hdot : '.' ∉ y := not_mem_of_pred cleanChar y h '.' (by decide)
  have hspace : ' ' ∉ y := not_mem_of_pred cleanChar y h ' ' (by decide)
  have heq : '=' ∉ y := not_mem_of_pred cleanChar y h '=' (by decide)
  have hdw : y.dropWhile isDigitGo = y :=
    dropWhile_eq_self_of isDigitGo y fun c hc => (hspec c hc).1
  have hcont : containsL y ['='] = false := containsL_single_false '=' y heq
  simp only [normalizeSAN]
  rw [htrim, hmap,
    replaceAllL_eq_self _ _ '0' (by simp) y h0,
    replaceAllL_eq_self _ _ '0' (by simp) y h0,
    replaceAllL_eq_self _ _ '+' (by simp) y hplus,
    replaceAllL_eq_self _ _ '#' (by simp) y hhash,
    replaceAllL_eq_self _ _ '!' (by simp) y hbang,
    replaceAllL_eq_self _ _ '?' (by simp) y hques,
    replaceAllL_eq_self ['!', '?'] _ '!' (by simp) y hbang,
    replaceAllL_eq_self ['?', '!'] _ '?' (by simp) y hques,
    replaceAllL_eq_self ['.', '.', '.'] _ '.' (by simp) y hdot,
    replaceAllL_eq_self ['.', '.'] _ '.' (by simp) y hdot,
    replaceAllL_eq_self ['.'] _ '.' (by simp) y hdot,
    hdw]
  simp only [hcont, Bool.false_eq_true, if_false]
  exact replaceAllL_eq_self [' '] [] ' ' (by simp) y hspace

/-- Over tame input, every character of a `normalizeSAN` output is clean. -/
theorem normalizeSAN_clean (s : List Char) (hs : ∀ c ∈ s, tameChar c = true) :
    ∀ c ∈ normalizeSAN s, cleanChar c = true := by
  intro c hc
  simp only [normalizeSAN] at hc
  set t0 := (trimSpaceL s).map toLowerGo with ht0
  have hA0 : ∀ a ∈ t0, lowChar a = true := by
    intro a ha
    rcases List.mem_map.mp ha with ⟨b, hb, rfl⟩
    exact toLowerGo_low b (hs b (mem_trimSpaceL s b hb))
  have h00 : '0' ∉ t0 := not_mem_of_pred lowChar t0 hA0 '0' (by decide)
  rw [replaceAllL_eq_self ['0', '-', '0', '-', '0'] _ '0' (by simp) t0 h00,
    replaceAllL_eq_self ['0', '-', '0'] _ '0' (by simp) t0 h00] at hc
  have hnil : ∀ a ∈ ([] : List Char), lowChar a = true :=
    fun a ha => absurd ha (List.not_mem_nil a)
  set t1 := replaceAllL ['+'] [] t0 with ht1
  have hA1 : ∀ a ∈ t1, lowChar a = true := forall_mem_replaceAllL lowChar _ _ _ hA0 hnil
  have hp1 : '+' ∉ t1 := not_mem_replaceAllL_single '+' [] (List.not_mem_nil '+') t0
  set t2 := replaceAllL ['#'] [] t1 with ht2
  have hA2 : ∀ a ∈ t2, lowChar a = true := forall_mem_replaceAllL lowChar _ _ _ hA1 hnil
  have hp2 : '+' ∉ t2 := not_mem_replaceAllL_of _ _ _ '+' hp1 (List.not_mem_nil '+')
  have hh2 : '#' ∉ t2 := not_mem_replaceAllL_single '#' [] (List.not_mem_nil '#') t1
  set t3 := replaceAllL ['!'] [] t2 with ht3
  have hA3 : ∀ a ∈ t3, lowChar a = true := forall_mem_replaceAllL lowChar _ _ _ hA2 hnil
  have hp3 : '+' ∉ t3 := not_mem_replaceAllL_of _ _ _ '+' hp2 (List.not_mem_nil '+')
  have hh3 : '#' ∉ t3 := not_mem_replaceAllL_of _ _ _ '#' hh2 (List.not_mem_nil '#')
  have hb3 : '!' ∉ t3 := not_mem_replaceAllL_single '!' [] (List.not_mem_nil '!') t2
  set t4 := replaceAllL ['?'] [] t3 with ht4
  have hA4 : ∀ a ∈ t4, lowChar a = true := forall_mem_replaceAllL lowChar _ _ _ hA3 hnil
  have hp4 : '+' ∉ t4 := not_mem_replaceAllL_of _ _ _ '+' hp3 (List.not_mem_nil '+')
  have hh4 : '#' ∉ t4 := not_mem_replaceAllL_of _ _ _ '#' hh3 (List.not_mem_nil '#')
  have hb4 : '!' ∉ t4 := not_mem_replaceAllL_of _ _ _ '!' hb3 (List.not_mem_nil '!')
  have hq4 : '?' ∉ t4 := not_mem_replaceAllL_single '?' [] (List.not_mem_nil '?') t3
  rw [replaceAllL_eq_self ['!', '?'] _ '!' (by simp) t4 hb4,
    replaceAllL_eq_self ['?', '!'] _ '?' (by simp) t4 hq4] at hc
  set t5 := replaceAllL ['.', '.', '.'] [] t4 with ht5
  have hA5 : ∀ a ∈ t5, lowChar a = true := forall_mem_replaceAllL lowChar _ _ _ hA4 hnil
  have hp5 : '+' ∉ t5 := not_mem_replaceAllL_of _ _ _ '+' hp4 (List.not_mem_nil '+')
  have hh5 : '#' ∉ t5 := not_mem_replaceAllL_of _ _ _ '#' hh4 (List.not_mem_nil '#')
  have hb5 : '!' ∉ t5 := not_mem_replaceAllL_of _ _ _ '!' hb4 (List.not_mem_nil '!')
  have hq5 : '?' ∉ t5 := not_mem_replaceAllL_of _ _ _ '?' hq4 (List.not_mem_nil '?')
  set t6 := replaceAllL ['.', '.'] [] t5 with ht6
  have hA6 : ∀ a ∈ t6, lowChar a = true := forall_mem_replaceAllL lowChar _ _ _ hA5 hnil
  have hp6 : '+' ∉ t6 := not_mem_replaceAllL_of _ _ _ '+' hp5 (List.not_mem_nil '+')
  have hh6 : '#' ∉ t6 := not_mem_replaceAllL_of _ _ _ '#' hh5 (List.not_mem_nil '#')
  have hb6 : '!' ∉ t6 := not_mem_replaceAllL_of _ _ _ '!' hb5 (List.not_mem_nil '!')
  have hq6 : '?' ∉ t6 := not_mem_replaceAllL_of _ _ _ '?' hq5 (List.not_mem_nil '?')
  set t7 := replaceAllL ['.'] [] t6 with ht7
  have hA7 : ∀ a ∈ t7, lowChar a = true := forall_mem_replaceAllL lowChar _ _ _ hA6 hnil
  have hp7 : '+' ∉ t7 := not_mem_replaceAllL_of _ _ _ '+' hp6 (List.not_mem_nil '+')
  have hh7 : '#' ∉ t7 := not_mem_replaceAllL_of _ _ _ '#' hh6 (List.not_mem_nil '#')
  have hb7 : '!' ∉ t7 := not_mem_replaceAllL_of _ _ _ '!' hb6 (List.not_mem_nil '!')
  have hq7 : '?' ∉ t7 := not_mem_replaceAllL_of _ _ _ '?' hq6 (List.not_mem_nil '?')
  have hd7 : '.' ∉ t7 := not_mem_replaceAllL_single '.' [] (List.not_mem_nil '.') t6
  set t8 := t7.dropWhile isDigitGo with ht8
  have hA8 : ∀ a ∈ t8, lowChar a = true :=
    fun a ha => hA7 a (mem_of_mem_dropWhileL isDigitGo t7 a ha)
  have hp8 : '+' ∉ t8 := fun hm => hp7 (mem_of_mem_dropWhileL isDigitGo t7 '+' hm)
  have hh8 : '#' ∉ t8 := fun hm => hh7 (mem_of_mem_dropWhileL isDigitGo t7 '#' hm)
  have hb8 : '!' ∉ t8 := fun hm => hb7 (mem_of_mem_dropWhileL isDigitGo t7 '!' hm)
  have hq8 : '?' ∉ t8 := fun hm => hq7 (mem_of_mem_dropWhileL isDigitGo t7 '?' hm)
  have hd8 : '.' ∉ t8 := fun hm => hd7 (mem_of_mem_dropWhileL isDigitGo t7 '.' hm)
  have he8 : '=' ∉ t8 := not_mem_of_pred lowChar t8 hA8 '=' (by decide)
  have hcont : containsL t8 ['='] = false := containsL_single_false '=' t8 he8
  simp only [hcont, Bool.false_eq_true, if_false] at hc
  have hsp : ' ' ∉ replaceAllL [' '] [] t8 :=
    not_mem_replaceAllL_single ' ' [] (List.not_mem_nil ' ') t8
  have hAf : ∀ a ∈ replaceAllL [' '] [] t8, lowChar a = true :=
    forall_mem_replaceAllL lowChar _ _ _ hA8 hnil
  have hlow := lowChar_spec c (hAf c hc)
  have hcsp : isSpaceGo c = false := by
    rcases hlow.2.2.1 with h' | h'
    · exact h'
    · exact absurd (h' ▸ hc) hsp
  have hne : ∀ x : Char, x ∉ replaceAllL [' '] [] t8 → c ≠ x :=
    fun x hx he => hx (he ▸ hc)
  have hnp : c ≠ '+' := hne '+' (not_mem_replaceAllL_of _ _ _ '+' hp8 (List.not_mem_nil '+'))
  have hnh : c ≠ '#' := hne '#' (not_mem_replaceAllL_of _ _ _ '#' hh8 (List.not_mem_nil '#'))
  have hnb : c ≠ '!' := hne '!' (not_mem_replaceAllL_of _ _ _ '!' hb8 (List.not_mem_nil '!'))
  have hnq : c ≠ '?' := hne '?' (not_mem_replaceAllL_of _ _ _ '?' hq8 (List.not_mem_nil '?'))
  have hnd : c ≠ '.' := hne '.' (not_mem_replaceAllL_of _ _ _ '.' hd8 (List.not_mem_nil '.'))
  simp only [cleanChar, Bool.and_eq_true, Bool.not_eq_true', beq_eq_false_iff_ne]
  exact ⟨⟨⟨⟨⟨⟨⟨⟨hlow.1, hcsp⟩, hlow.2.2.2⟩, hlow.2.1⟩, hnp⟩, hnh⟩, hnb⟩, hnq⟩, hnd⟩

/-! ## Lemmas about the flat-mode grading loop -/

/-- Iterations past position 0 never change `response.Correct`. -/
theorem gradeLineLoop_corr_of_pos (lines : List Line) :
    ∀ (rest : List (List Char)) (i : Nat) (st : LoopState), 1 ≤ i →
      (gradeLineLoop lines rest i st).corr = st.corr := by
  intro rest
  induction rest with
  | nil => intro i st _; rfl
  | cons m r ih =>
    intro i st hi
    rw [gradeLineLoop]
    by_cases h : lines.length ≤ i
    · rw [dif_pos h]
    · rw [dif_neg h]
      by_cases hm :
          normalizeSAN m = normalizeSAN (lines.get ⟨i, Nat.lt_of_not_le h⟩).san
      · rw [if_pos hm, ih (i + 1) _ (by omega)]
        simp only [if_neg (by omega : ¬i = 0)]
      · rw [if_neg hm]

/-- Loop invariant: `depthMatched` equals the length of `bestLine`, and
`earliestMistake`, once set, records exactly the final matched depth. -/
theorem gradeLineLoop_invariant (lines : List Line) :
    ∀ (rest : List (List Char)) (i : Nat) (st : LoopState),
      st.em = none → st.dm = st.bl.length → st.dm = i →
      (gradeLineLoop lines rest i st).dm = (gradeLineLoop lines rest i st).bl.length ∧
      ((gradeLineLoop lines rest i st).em = none ∨
        (gradeLineLoop lines rest i st).em = some (gradeLineLoop lines rest i st).dm) := by
  intro rest
  induction rest with
  | nil =>
    intro i st hem hdm _
    exact ⟨hdm, Or.inl hem⟩
  | cons m r ih =>
    intro i st hem hdm hi
    rw [gradeLineLoop]
    by_cases h : lines.length ≤ i
    · rw [dif_pos h]
      refine ⟨hdm, Or.inr ?_⟩
      simp [hem, hi]
    · rw [dif_neg h]
      by_cases hm :
          normalizeSAN m = normalizeSAN (lines.get ⟨i, Nat.lt_of_not_le h⟩).san
      · rw [if_pos hm]
        refine ih (i + 1) _ hem ?_ rfl
        simp [List.length_append, ← hdm, hi]
      · rw [if_neg hm]
        refine ⟨hdm, Or.inr ?_⟩
        simp [hem, hi]

/-- Feeding the loop the solution moves themselves (positions `i ≤ … < i+n`)
matches every step: no mistake is recorded and the matched depth advances to
`i + n`. -/
theorem gradeLineLoop_take (lines : List Line) :
    ∀ (n i : Nat) (st : LoopState), st.em = none → i + n ≤ lines.length →
      (gradeLineLoop lines (((lines.drop i).take n).map Line.san) i st).em = none ∧
      (gradeLineLoop lines (((lines.drop i).take n).map Line.san) i st).dm =
        (if n = 0 then st.dm else i + n) := by
  intro n
  induction n with
  | zero =>
    intro i st hem _
    simp only [List.take_zero, List.map_nil, gradeLineLoop, if_pos rfl]
    exact ⟨hem, rfl⟩
  | succ n ih =>
    intro i st hem hlen
    have hi : i < lines.length := by omega
    have hnle : ¬lines.length ≤ i := by omega
    rw [List.drop_eq_getElem_cons hi, List.take_succ_cons, List.map_cons,
      gradeLineLoop, dif_neg hnle]
    rw [if_pos (show normalizeSAN (lines[i].san) =
      normalizeSAN ((lines.get ⟨i, Nat.lt_of_not_le hnle⟩).san) from rfl)]
    have hres := ih (i + 1)
      { tm := if (lines.get ⟨i, Nat.lt_of_not_le hnle⟩).isTick then st.tm ++ [i] else st.tm
        dm := i + 1
        em := st.em
        bl := st.bl ++ [(lines.get ⟨i, Nat.lt_of_not_le hnle⟩).san]
        corr := if i = 0 then true else st.corr } hem (by omega)
    rcases hres with ⟨hem', hdm'⟩
    refine ⟨hem', ?_⟩
    rw [hdm', if_neg (Nat.succ_ne_zero n)]
    by_cases hn : n = 0
    · simp [hn]
    · rw [if_neg hn]
      omega


/-! ## Claim theorems -/

/-- C1: for every puzzle and typed move list, the flat-mode grade returns
`score = 0` when `correct` is false and `1 + |ticksMatched|` otherwise, and
`correct` holds exactly when the first typed move matches (after
normalization) the first solution move. -/
theorem gradeLine_score_and_correct (p : Puzzle) (typed : List (List Char)) :
    (gradeLine p typed).score =
      (if (gradeLine p typed).correct then 1 + (gradeLine p typed).ticksMatched.length
       else 0) ∧
    (gradeLine p typed).correct = firstMoveMatches p typed := by
  cases typed with
  | nil => constructor <;> rfl
  | cons m rest =>
    have hne : (m :: rest : List (List Char)) ≠ [] := List.cons_ne_nil m rest
    simp only [gradeLine, if_neg hne]
    refine ⟨by simp, ?_⟩
    cases hl : p.solutionLines with
    | nil =>
      simp only [firstMoveMatches, hl]
      rw [gradeLineLoop, dif_pos (by simp : ([] : List Line).length ≤ 0)]
    | cons s ls =>
      simp only [firstMoveMatches, hl]
      have hnle : ¬(s :: ls).length ≤ 0 := by simp
      rw [gradeLineLoop, dif_neg hnle]
      by_cases hm : normalizeSAN m = normalizeSAN s.san
      · rw [if_pos (show normalizeSAN m =
          normalizeSAN (((s :: ls).get ⟨0, Nat.lt_of_not_le hnle⟩).san) from hm)]
        rw [gradeLineLoop_corr_of_pos (s :: ls) rest 1 _ (le_refl 1)]
        simp [hm]
      · rw [if_neg (show ¬normalizeSAN m =
          normalizeSAN (((s :: ls).get ⟨0, Nat.lt_of_not_le hnle⟩).san) from hm)]
        exact (beq_eq_false_iff_ne.mpr hm).symm

/-- C2: when the typed list is exactly the first `k` solution moves
(`k ≤` solution length), the flat grader reports `depthMatched = k` and no
earliest mistake. -/
theorem gradeLine_matches_initial_segment (p : Puzzle) (k : Nat)
    (hk : k ≤ p.solutionLines.length) :
    (gradeLine p ((p.solutionLines.take k).map Line.san)).depthMatched = k ∧
    (gradeLine p ((p.solutionLines.take k).map Line.san)).earliestMistake = none := by
  by_cases hk0 : k = 0
  · subst hk0
    simp [gradeLine]
  · have hne : (p.solutionLines.take k).map Line.san ≠ [] := by
      intro h
      apply hk0
      have hlen := congrArg List.length h
      simp only [List.length_map, List.length_take, List.length_nil] at hlen
      omega
    simp only [gradeLine, if_neg hne]
    have h := gradeLineLoop_take p.solutionLines k 0
      { tm := [], dm := 0, em := none, bl := [], corr := false } rfl (by omega)
    rw [List.drop_zero] at h
    refine ⟨?_, h.1⟩
    rw [h.2, if_neg hk0]
    omega

/-- Witness for C2 at a concrete two-move puzzle and `k = 2`. -/
theorem gradeLine_matches_initial_segment_witness :
    (gradeLine ⟨[Line.mk ['e', '4'] true [], Line.mk ['e', '5'] false []], []⟩
      (((⟨[Line.mk ['e', '4'] true [], Line.mk ['e', '5'] false []], []⟩ :
          Puzzle).solutionLines.take 2).map Line.san)).depthMatched = 2 ∧
    (gradeLine ⟨[Line.mk ['e', '4'] true [], Line.mk ['e', '5'] false []], []⟩
      (((⟨[Line.mk ['e', '4'] true [], Line.mk ['e', '5'] false []], []⟩ :
          Puzzle).solutionLines.take 2).map Line.san)).earliestMistake = none :=
  gradeLine_matches_initial_segment
    ⟨[Line.mk ['e', '4'] true [], Line.mk ['e', '5'] false []], []⟩ 2 (by decide)

/-- C3 counterexample: a second `saveProgress` call with `depthMatched ≥ 3`
overwrites an already-set `solvedAt` (`some 1` becomes `some 2`). -/
theorem saveProgress_solvedAt_changes_again :
    (saveProgress
      (some { attempts := 1, score := 0, typedJson := [], solvedAt := none,
              updatedAt := 0 }) [] 0 3 1).solvedAt = some 1 ∧
    (saveProgress (some (saveProgress
      (some { attempts := 1, score := 0, typedJson := [], solvedAt := none,
              updatedAt := 0 }) [] 0 3 1)) [] 0 3 2).solvedAt = some 2 ∧
    (some 2 : Option Nat) ≠ some 1 := by
  refine ⟨?_, ?_, by decide⟩ <;> rfl

/-- C3 amended: on the update path `solvedAt` is overwritten to the current
time whenever `depthMatched ≥ 3` (even if already set) and kept otherwise;
the insert path never sets it. -/
theorem saveProgress_solvedAt_rule (typed : List (List Char)) (score depth : Int)
    (now : Nat) (row : ProgressRow) :
    (saveProgress none typed score depth now).solvedAt = none ∧
    (saveProgress (some row) typed score depth now).solvedAt =
      (if 3 ≤ depth then some now else row.solvedAt) :=
  ⟨rfl, rfl⟩

/-- C4 counterexample: in flat mode an empty-move tick node is matched by a
typed `"+"` (which normalizes to the empty string), advancing `depthMatched`
and earning tick credit. -/
theorem gradeLine_empty_move_matched :
    (gradeLine ⟨[Line.mk [] true []], []⟩ [['+']]).depthMatched = 1 ∧
    (gradeLine ⟨[Line.mk [] true []], []⟩ [['+']]).ticksMatched = [0] ∧
    (gradeLine ⟨[Line.mk [] true []], []⟩ [['+']]).correct = true ∧
    (gradeLine ⟨[Line.mk [] true []], []⟩ [['+']]).score = 2 := by
  have hplus : normalizeSAN ['+'] = [] := by
    simp [normalizeSAN, replaceAllL, splitGo, containsL, startsWithL, trimSpaceL,
      isSpaceGo, isDigitGo, toLowerGo, isUpperAZ]
  have hnil : normalizeSAN ([] : List Char) = [] := by
    simp [normalizeSAN, replaceAllL, splitGo, containsL, startsWithL, trimSpaceL,
      isSpaceGo, isDigitGo, toLowerGo, isUpperAZ]
  refine ⟨?_, ?_, ?_, ?_⟩ <;>
    simp [gradeLine, gradeLineLoop, hplus, hnil, Line.san, Line.isTick]

/-- C4 amended: the legacy branching grader really does skip empty-move
nodes at every depth and in every state (flat mode does not, see the
counterexample). -/
theorem dfs_skips_empty_move_nodes (played : List (List Char)) (tick : Bool)
    (children rest : List Line) (depth : Nat) (st : DfsState) :
    dfs played (Line.mk [] tick children :: rest) depth st =
      dfs played rest depth st := by
  rw [dfs, if_pos rfl]

/-- C5 counterexample: after a deeper mismatch under the first matching
sibling, the DFS does try the second sibling, and the score keeps the
abandoned branch's tick: the result `(true, 3, [a, y])` differs from the
no-backtracking result `(true, 1, [a])` the claim describes (3 ticks counted
though no single root-to-leaf path has more than 2). -/
theorem gradeSolution_backtracks_counterexample :
    gradeSolution ⟨[Line.mk ['a'] true [Line.mk ['x'] false []],
        Line.mk ['a'] true [Line.mk ['y'] true []]], []⟩ [['a'], ['y']] =
      (true, 3, [['a'], ['y']]) ∧
    specGradeNoBacktrack ⟨[Line.mk ['a'] true [Line.mk ['x'] false []],
        Line.mk ['a'] true [Line.mk ['y'] true []]], []⟩ [['a'], ['y']] =
      (true, 1, [['a']]) ∧
    gradeSolution ⟨[Line.mk ['a'] true [Line.mk ['x'] false []],
        Line.mk ['a'] true [Line.mk ['y'] true []]], []⟩ [['a'], ['y']] ≠
    specGradeNoBacktrack ⟨[Line.mk ['a'] true [Line.mk ['x'] false []],
        Line.mk ['a'] true [Line.mk ['y'] true []]], []⟩ [['a'], ['y']] := by
  have e1 : gradeSolution ⟨[Line.mk ['a'] true [Line.mk ['x'] false []],
      Line.mk ['a'] true [Line.mk ['y'] true []]], []⟩ [['a'], ['y']] =
      (true, 3, [['a'], ['y']]) := by
    simp [gradeSolution, dfs, dfsStep, setOrAppendAt, Line.san, Line.isTick, Line.children]
  have e2 : specGradeNoBacktrack ⟨[Line.mk ['a'] true [Line.mk ['x'] false []],
      Line.mk ['a'] true [Line.mk ['y'] true []]], []⟩ [['a'], ['y']] =
      (true, 1, [['a']]) := by
    simp [specGradeNoBacktrack, specNoBacktrack, findMatchingSibling, setOrAppendAt,
      Line.san, Line.isTick, Line.children]
  refine ⟨e1, e2, ?_⟩
  rw [e1, e2]
  decide

/-- C5 amended: when the subtree search under the first sibling fully
succeeds, later siblings at the same depth are never consulted (backtracking
happens only after a deeper mismatch, see the counterexample). -/
theorem dfs_first_success_wins (played : List (List Char)) (l : Line)
    (rest : List Line) (depth : Nat) (st : DfsState)
    (h : (dfs played [l] depth st).2 = true) :
    dfs played (l :: rest) depth st = dfs played [l] depth st := by
  cases l with
  | mk san tick children =>
    simp only [dfs] at h ⊢
    by_cases hs0 : san = []
    · simp only [if_pos hs0] at h
      simp at h
    · simp only [if_neg hs0] at h ⊢
      by_cases hd : depth < played.length
      · simp only [dif_pos hd] at h ⊢
        by_cases hm : san = played.get ⟨depth, hd⟩
        · simp only [if_pos hm] at h ⊢
          by_cases hc : depth + 1 < played.length ∧ children.isEmpty = false
          · simp only [if_pos hc] at h ⊢
            rcases hrec : dfs played children (depth + 1) (dfsStep st san tick depth)
              with ⟨st4, found⟩
            cases found with
            | true => rfl
            | false =>
              rw [hrec] at h
              simp at h
          · simp only [if_neg hc] at h ⊢
            by_cases ht : played.length ≤ depth + 1
            · simp only [if_pos ht]
            · simp only [if_neg ht] at h
              simp at h
        · simp only [if_neg hm] at h
          simp at h
      · simp only [dif_neg hd] at h
        simp at h

/-- Witness for C5 amended: a one-move match under the first sibling makes
the second sibling irrelevant. -/
theorem dfs_first_success_wins_witness :
    (dfs [['a']] [Line.mk ['a'] true []] 0 ⟨false, 0, []⟩).2 = true ∧
    dfs [['a']] [Line.mk ['a'] true [], Line.mk ['b'] false []] 0 ⟨false, 0, []⟩ =
      dfs [['a']] [Line.mk ['a'] true []] 0 ⟨false, 0, []⟩ :=
  ⟨by simp [dfs, dfsStep, setOrAppendAt],
    dfs_first_success_wins [['a']] (Line.mk ['a'] true [])
      [Line.mk ['b'] false []] 0 ⟨false, 0, []⟩ (by simp [dfs, dfsStep, setOrAppendAt])⟩

/-- C6 counterexample: `normalizeSAN` is not idempotent — `"=1a"` normalizes
to `"1a"` which re-normalizes to `"a"`; digits (`"a0.-0"`) and non-space
whitespace (`"a\t."`) break it too. -/
theorem normalizeSAN_not_idempotent :
    normalizeSAN (normalizeSAN ['=', '1', 'a']) ≠ normalizeSAN ['=', '1', 'a'] ∧
    normalizeSAN (normalizeSAN ['a', '0', '.', '-', '0']) ≠
      normalizeSAN ['a', '0', '.', '-', '0'] ∧
    normalizeSAN (normalizeSAN ['a', '\t', '.']) ≠ normalizeSAN ['a', '\t', '.'] := by
  refine ⟨?_, ?_, ?_⟩ <;>
    simp [normalizeSAN, replaceAllL, splitGo, containsL, startsWithL, trimSpaceL,
      isSpaceGo, isDigitGo, toLowerGo, isUpperAZ]

/-- C6 amended: `normalizeSAN` is idempotent on every input containing no
digit, no `=`, and no whitespace other than a plain space. -/
theorem normalizeSAN_idempotent_on_tame (s : List Char)
    (h : ∀ c ∈ s, tameChar c = true) :
    normalizeSAN (normalizeSAN s) = normalizeSAN s :=
  normalizeSAN_eq_self_of_clean (normalizeSAN s) (normalizeSAN_clean s h)

/-- Witness for C6 amended at the tame input `"O-O+"`. -/
theorem normalizeSAN_idempotent_on_tame_witness :
    (∀ c ∈ ['O', '-', 'O', '+'], tameChar c = true) ∧
    normalizeSAN (normalizeSAN ['O', '-', 'O', '+']) =
      normalizeSAN ['O', '-', 'O', '+'] :=
  ⟨by decide, normalizeSAN_idempotent_on_tame ['O', '-', 'O', '+'] (by decide)⟩

example :
    normalizeSAN ['N', 'f', '3', '+'] = ['n', 'f', '3'] ∧
    normalizeSAN ['O', '-', 'O'] = normalizeSAN ['0', '-', '0'] ∧
    normalizeSAN ['e', '8', '=', 'Q'] = normalizeSAN ['e', '8', 'Q'] := by
  refine ⟨?_, ?_, ?_⟩ <;>
    simp [normalizeSAN, replaceAllL, splitGo, containsL, startsWithL, trimSpaceL,
      isSpaceGo, isDigitGo, toLowerGo, isUpperAZ]

/-- C7: an empty typed list yields the zero-value grade in both modes (no
error): every field zero/empty, `earliestMistake = none`, with only the
`requiredTicks` passthrough copied from the puzzle. -/
theorem grade_empty_typed_zero_result (p : Puzzle) :
    gradeLine p [] =
      { correct := false, score := 0, ticksMatched := [], depthMatched := 0,
        earliestMistake := none, bestLine := [], requiredTicks := p.ticks } ∧
    gradeSolution p [] = (false, 0, []) :=
  ⟨rfl, rfl⟩

/-- C8: the first `saveProgress` call inserts a row with `attempts = 1`, and
every later call increments `attempts` and unconditionally overwrites
`score` and the stored typed moves, whatever the old and new scores are. -/
theorem saveProgress_upsert_semantics (typed : List (List Char))
    (score depth : Int) (now : Nat) (row : ProgressRow) :
    (saveProgress none typed score depth now).attempts = 1 ∧
    (saveProgress none typed score depth now).score = score ∧
    (saveProgress none typed score depth now).typedJson = typed ∧
    (saveProgress (some row) typed score depth now).attempts = row.attempts + 1 ∧
    (saveProgress (some row) typed score depth now).score = score ∧
    (saveProgress (some row) typed score depth now).typedJson = typed :=
  ⟨rfl, rfl, rfl, rfl, rfl, rfl⟩

/-- C9: the daily-plan sweep handles every user independently — its result is
the per-user outcome mapped over the (fallback-adjusted) user list, so one
user's plan/build/persist failure never aborts the remaining users. -/
theorem updateDailyPlans_processes_all_users (svc : PlanService)
    (userIDs : List (List Char)) :
    updateDailyPlans svc (Except.ok userIDs) =
      (if userIDs.isEmpty then [defaultUserID] else userIDs).map (processUser svc) := by
  have hgo : ∀ l : List (List Char),
      updateDailyPlansGo svc l = l.map (processUser svc) := by
    intro l
    induction l with
    | nil => rfl
    | cons u rest ih =>
      cases hq : svc.getOrCreateDailyPlan u with
      | error e => simp [updateDailyPlansGo, processUser, hq, ih]
      | ok plan =>
        cases hb : svc.buildTodayBatch u plan with
        | error e => simp [updateDailyPlansGo, processUser, hq, hb, ih]
        | ok batch =>
          cases hp : svc.persistPlan u { plan with todayBatch := batch } with
          | error e => simp [updateDailyPlansGo, processUser, hq, hb, hp, ih]
          | ok x => simp [updateDailyPlansGo, processUser, hq, hb, hp, ih]
  simp [updateDailyPlans, hgo]

/-- C10: every flat-mode result is internally consistent — a non-nil
`earliestMistake` equals `depthMatched`, and `depthMatched` is always the
length of `bestLine`. -/
theorem gradeLine_result_consistent (p : Puzzle) (typed : List (List Char)) :
    ((gradeLine p typed).earliestMistake = none ∨
      (gradeLine p typed).earliestMistake = some (gradeLine p typed).depthMatched) ∧
    (gradeLine p typed).depthMatched = (gradeLine p typed).bestLine.length := by
  cases typed with
  | nil => exact ⟨Or.inl rfl, rfl⟩
  | cons m rest =>
    have hne : (m :: rest : List (List Char)) ≠ [] := List.cons_ne_nil m rest
    simp only [gradeLine, if_neg hne]
    have h := gradeLineLoop_invariant p.solutionLines (m :: rest) 0
      { tm := [], dm := 0, em := none, bl := [], corr := false } rfl rfl rfl
    exact ⟨h.2, h.1⟩
